import Mathlib

/-!
# Verification of the capture-record decoder and the stream tracker

Shallow embedding of

* `pkg/capture/events.go`  : `Direction`, `RawEvent`
* `pkg/ebpf/loader.go`     : `parseEvent` (with the parts of `bytes.Reader`,
  `io.ReadFull`, `encoding/binary` and `time` it calls)
* `pkg/stream/tracker.go`  : `StreamID`, `TCPStream`, `Tracker` and its methods

Bytes are `Fin 256`; Go's fixed-width integers are `Nat`/`Int` with explicit
wrap-around where a conversion or an overflow can occur.  A Go `string` is a
byte sequence and is modelled as `List Byte`.
-/

namespace Capture

/-- One octet, Go's `byte`. -/
abbrev Byte := Fin 256

/-! ## Go standard library: `time` (the part `parseEvent` reaches) -/

namespace GoTime

/-- Conversion to `int64`: two's-complement wrap-around of an integer. -/
def toInt64 (x : Int) : Int := (x + 2 ^ 63) % 2 ^ 64 - 2 ^ 63

/-- Conversion to `int32`. -/
def toInt32 (x : Int) : Int := (x + 2 ^ 31) % 2 ^ 32 - 2 ^ 31

/-- Conversion to `uint64`. -/
def toUint64 (x : Int) : Nat := (x % 2 ^ 64).toNat

/-- The constant `hasMonotonic = 1 << 63`. -/
def hasMonotonic : Nat := 1 <<< 63
/-- The constant `nsecMask = 1<<30 - 1`. -/
def nsecMask : Nat := (1 <<< 30) - 1
/-- The constant `nsecShift = 30`. -/
def nsecShift : Nat := 30
/-- The constant `secondsPerDay`. -/
def secondsPerDay : Int := 86400
/-- The constant `unixToInternal`: seconds from year 1 to 1970. -/
def unixToInternal : Int := (1969 * 365 + 1969 / 4 - 1969 / 100 + 1969 / 400) * secondsPerDay
/-- The constant `internalToUnix`. -/
def internalToUnix : Int := -unixToInternal
/-- The constant `wallToInternal`: seconds from year 1 to 1885. -/
def wallToInternal : Int := (1884 * 365 + 1884 / 4 - 1884 / 100 + 1884 / 400) * secondsPerDay

/-- Go's `time.Time`: the `wall` word (`uint64`) and the `ext` word (`int64`).
The location pointer plays no role in the instant and is left out. -/
structure Time where
  wall : Nat
  ext : Int
  deriving DecidableEq, Repr

/-- `unixTime(sec, nsec)`: `Time{uint64(nsec), sec + unixToInternal, Local}`. -/
def unixTime (sec : Int) (nsec : Int) : Time :=
  { wall := toUint64 nsec, ext := toInt64 (sec + unixToInternal) }

/-- `time.Unix(sec, nsec)`: normalises `nsec` into `[0, 1e9)` (Go's `/` truncates
towards zero) and builds the instant. -/
def Unix (sec : Int) (nsec : Int) : Time :=
  if nsec < 0 ∨ nsec ≥ 1000000000 then
    let n := Int.tdiv nsec 1000000000
    let sec1 := toInt64 (sec + n)
    let nsec1 := toInt64 (nsec - toInt64 (n * 1000000000))
    if nsec1 < 0 then
      unixTime (toInt64 (sec1 - 1)) (toInt32 (toInt64 (nsec1 + 1000000000)))
    else
      unixTime sec1 (toInt32 nsec1)
  else
    unixTime sec (toInt32 nsec)

/-- `Time.nsec`: `int32(t.wall & nsecMask)`. -/
def Time.nsec (t : Time) : Int := toInt32 ((t.wall &&& nsecMask : Nat) : Int)

/-- `Time.sec`: seconds since year 1. -/
def Time.sec (t : Time) : Int :=
  if t.wall &&& hasMonotonic ≠ 0 then
    toInt64 (wallToInternal + toInt64 (((((t.wall <<< 1) % 2 ^ 64) >>> (nsecShift + 1)) : Nat) : Int))
  else
    t.ext

/-- `Time.unixSec`: `t.sec() + internalToUnix`. -/
def Time.unixSec (t : Time) : Int := toInt64 (t.sec + internalToUnix)

/-- `Time.UnixNano`: `t.unixSec()*1e9 + int64(t.nsec())`, computed in `int64`. -/
def Time.UnixNano (t : Time) : Int :=
  toInt64 (toInt64 (t.unixSec * 1000000000) + toInt64 t.nsec)

end GoTime

/-! ## `pkg/capture/events.go` -/

/-- Go: `type Direction int`. -/
abbrev Direction := Int

/-- Outbound. -/
def DirSend : Direction := 1
/-- Inbound. -/
def DirRecv : Direction := 2

/-- The struct `RawEvent`: a captured network event. -/
structure RawEvent where
  Timestamp : GoTime.Time
  PID : Nat
  TID : Nat
  Fd : Nat
  Direction : Direction
  Data : List Byte
  Comm : List Byte
  deriving DecidableEq, Repr

/-! ## `pkg/ebpf/loader.go` -/

/-- The constant `maxDataSize`. -/
def maxDataSize : Nat := 16384
/-- The constant `taskCommLen`. -/
def taskCommLen : Nat := 16
/-- The constant `eventTypeSend`. -/
def eventTypeSend : Nat := 1
/-- The constant `eventTypeRecv`. -/
def eventTypeRecv : Nat := 2

/-- The errors `parseEvent` can return: its own "event data too short", and
`io.EOF` / `io.ErrUnexpectedEOF` coming from the reader. -/
inductive Error where
  | tooShort
  | EOF
  | ErrUnexpectedEOF
  deriving DecidableEq, Repr

/-- A `bytes.Reader`: the underlying slice `s` and the read index `i`. -/
structure Reader where
  s : List Byte
  i : Nat
  deriving DecidableEq, Repr

/-- `bytes.NewReader(data)`. -/
def NewReader (data : List Byte) : Reader := { s := data, i := 0 }

/-- `(*bytes.Reader).Read(b)` for a destination `b` of length `n`:
at end of input it returns `0, io.EOF`; otherwise it copies
`min(n, remaining)` bytes and advances. Returns the bytes copied, the error
and the reader afterwards. -/
def Reader.Read (r : Reader) (n : Nat) : List Byte × Option Error × Reader :=
  if r.i ≥ r.s.length then
    ([], some Error.EOF, r)
  else
    let got := (r.s.drop r.i).take n
    (got, none, { r with i := r.i + got.length })

/-- `io.ReadFull(r, buf)` with `len(buf) = n` on a `bytes.Reader`: reads exactly
`n` bytes; `io.EOF` when nothing could be read, `io.ErrUnexpectedEOF` when
only a part could. A zero-length destination reads nothing. -/
def ReadFull (r : Reader) (n : Nat) : Except Error (List Byte × Reader) :=
  if n = 0 then .ok ([], r)
  else
    match r.Read n with
    | (_, some e, _) => .error e
    | (got, none, r1) =>
      if got.length ≥ n then .ok (got, r1)
      else
        -- the next Read is at end of input: 0, io.EOF after a partial read
        .error Error.ErrUnexpectedEOF

/-- `binary.LittleEndian` decoding of an unsigned integer from its bytes. -/
def littleEndian : List Byte → Nat
  | [] => 0
  | b :: bs => b.val + 256 * littleEndian bs

/-- The range loop over `comm` in `parseEvent`: at the first zero byte, at index
`i`, `comm[:i]` is assigned and the loop breaks; when the loop runs out,
`event.Comm` keeps its zero value, the empty string. -/
def commLoop (comm : List Byte) : List Byte → Nat → List Byte
  | [], _ => []
  | b :: bs, i => if b = 0 then comm.take i else commLoop comm bs (i + 1)

/-- The function `parseEvent`: parses a raw event from the ring buffer. -/
def parseEvent (data : List Byte) : Except Error RawEvent :=
  if data.length < 8 + 4 + 4 + 4 + 1 + 4 + taskCommLen then
    .error Error.tooShort
  else
    let buf := NewReader data
    -- timestamp (u64)
    match ReadFull buf 8 with
    | .error e => .error e
    | .ok (tsB, buf) =>
    let timestamp := littleEndian tsB
    let Timestamp := GoTime.Unix 0 (GoTime.toInt64 timestamp)
    -- PID (u32)
    match ReadFull buf 4 with
    | .error e => .error e
    | .ok (pidB, buf) =>
    -- TID (u32)
    match ReadFull buf 4 with
    | .error e => .error e
    | .ok (tidB, buf) =>
    -- FD (u32)
    match ReadFull buf 4 with
    | .error e => .error e
    | .ok (fdB, buf) =>
    -- type (u8)
    match ReadFull buf 1 with
    | .error e => .error e
    | .ok (tyB, buf) =>
    let eventType := littleEndian tyB
    let Direction := if eventType = eventTypeSend then DirSend else DirRecv
    -- data length (u32)
    match ReadFull buf 4 with
    | .error e => .error e
    | .ok (lenB, buf) =>
    let dataLen := littleEndian lenB
    -- comm (task command name)
    match ReadFull buf taskCommLen with
    | .error e => .error e
    | .ok (comm, buf) =>
    let Comm0 := commLoop comm comm 0
    let Comm := if Comm0 = [] then comm else Comm0
    -- data
    if dataLen > 0 ∧ dataLen ≤ maxDataSize then
      -- n, err := buf.Read(event.Data); here n is got.length
      match buf.Read dataLen with
      | (got, some err, _) =>
        if got.length = 0 then .error err
        else
          .ok { Timestamp := Timestamp, PID := littleEndian pidB, TID := littleEndian tidB,
                Fd := littleEndian fdB, Direction := Direction, Data := got, Comm := Comm }
      | (got, none, _) =>
        .ok { Timestamp := Timestamp, PID := littleEndian pidB, TID := littleEndian tidB,
              Fd := littleEndian fdB, Direction := Direction, Data := got, Comm := Comm }
    else
      .ok { Timestamp := Timestamp, PID := littleEndian pidB, TID := littleEndian tidB,
            Fd := littleEndian fdB, Direction := Direction, Data := [], Comm := Comm }

/-! ## `pkg/stream/tracker.go` -/

/-- The struct `StreamID`: uniquely identifies a TCP stream. -/
structure StreamID where
  PID : Nat
  Fd : Nat
  deriving DecidableEq, Repr

/-- A `bytes.Buffer`, as the sequence of its unread bytes. -/
abbrev Buffer := List Byte

/-- `(*bytes.Buffer).Write(p)`: appends `p`. -/
def Buffer.Write (b : Buffer) (p : List Byte) : Buffer := b ++ p

/-- `(*bytes.Buffer).Len()`: the number of unread bytes. -/
def Buffer.Len (b : Buffer) : Nat := b.length

/-- The struct `TCPStream`: a bidirectional TCP connection. -/
structure TCPStream where
  ID : StreamID
  SendBuffer : Buffer
  RecvBuffer : Buffer
  Closed : Bool
  deriving DecidableEq, Repr

/-- The function `NewTCPStream`: both buffers empty, `Closed` at its zero value. -/
def NewTCPStream (id : StreamID) : TCPStream :=
  { ID := id, SendBuffer := [], RecvBuffer := [], Closed := false }

/-- The struct `Tracker`: the Go map `streams` from `StreamID` to `*TCPStream`, as a
finite map with distinct keys. Each stream object is owned by exactly one key
(only `ProcessEvent` inserts, and it inserts a fresh object), so the pointer
stored under a key is represented by the value it points to, and a write
through the pointer is a replacement of the value under that key. The mutex
is not represented: every method runs under it, so methods are atomic steps. -/
structure Tracker where
  streams : AList (fun _ : StreamID => TCPStream)

/-- The function `NewTracker`: an empty table. -/
def NewTracker : Tracker := { streams := ∅ }

/-- The method `Tracker.ProcessEvent`: get or create the stream for the identity
of the event, append the payload to the buffer of its direction, return the
stream. The result is the tracker afterwards and the returned stream, read at
return time. -/
def Tracker.ProcessEvent (t : Tracker) (event : RawEvent) : Tracker × TCPStream :=
  let id : StreamID := { PID := event.PID, Fd := event.Fd }
  -- get or create stream
  let stream := match t.streams.lookup id with
    | some s => s
    | none => NewTCPStream id
  -- append data to appropriate buffer
  let stream1 :=
    if event.Data.length > 0 then
      if event.Direction = DirSend then
        { stream with SendBuffer := stream.SendBuffer.Write event.Data }
      else
        { stream with RecvBuffer := stream.RecvBuffer.Write event.Data }
    else stream
  ({ streams := t.streams.insert id stream1 }, stream1)

/-- The method `Tracker.GetStream`: the stream for a given ID, `none` for Go's nil. -/
def Tracker.GetStream (t : Tracker) (id : StreamID) : Option TCPStream :=
  t.streams.lookup id

/-- The method `Tracker.RemoveStream`: `delete(t.streams, id)`. -/
def Tracker.RemoveStream (t : Tracker) (id : StreamID) : Tracker :=
  { streams := t.streams.erase id }

/-- The condition under which `CleanupOldStreams` deletes a stream. -/
def cleanupCond (stream : TCPStream) : Bool :=
  stream.SendBuffer.Len == 0 && stream.RecvBuffer.Len == 0 && stream.Closed

/-- The method `Tracker.CleanupOldStreams`: the range loop over the map, in the
order of the entries, deleting the current key when its stream has both
buffers empty and is closed. -/
def Tracker.CleanupOldStreams (t : Tracker) : Tracker :=
  { streams := t.streams.entries.foldl
      (fun m e => if cleanupCond e.2 then m.erase e.1 else m) t.streams }

/-! ## Vocabulary of the properties -/

/-- The `n` bytes of `data` starting at offset `off`. -/
def field (data : List Byte) (off n : Nat) : List Byte := (data.drop off).take n

/-- The declared payload length: the little-endian `u32` at offset 21. -/
def declaredLen (data : List Byte) : Nat := littleEndian (field data 21 4)

/-- The comm string `parseEvent` computes from the 16-byte name field. -/
def commOf (comm : List Byte) : List Byte :=
  if commLoop comm comm 0 = [] then comm else commLoop comm comm 0

/-- The event `parseEvent` builds from the header of `data`, with payload `payload`. -/
def eventOf (data : List Byte) (payload : List Byte) : RawEvent :=
  { Timestamp := GoTime.Unix 0 (GoTime.toInt64 (littleEndian (field data 0 8))),
    PID := littleEndian (field data 8 4),
    TID := littleEndian (field data 12 4),
    Fd := littleEndian (field data 16 4),
    Direction := if littleEndian (field data 20 1) = eventTypeSend then DirSend else DirRecv,
    Data := payload,
    Comm := commOf (field data 25 16) }

/-- Little-endian encoding of `x` on `n` bytes (the inverse of `littleEndian`). -/
def encodeLE : Nat → Nat → List Byte
  | 0, _ => []
  | n + 1, x => Fin.ofNat x :: encodeLE n (x / 256)

/-- The identity an event carries. -/
def RawEvent.id (e : RawEvent) : StreamID := { PID := e.PID, Fd := e.Fd }

/-- The tracker after `ProcessEvent` has been called on each event of `es` in order. -/
def processAll (t : Tracker) (es : List RawEvent) : Tracker :=
  es.foldl (fun t e => (t.ProcessEvent e).1) t

/-- The payloads, concatenated in arrival order, of the events of `es` that carry
identity `id` and have direction Outbound. -/
def outboundOf (id : StreamID) : List RawEvent → List Byte
  | [] => []
  | e :: es => (if e.id = id ∧ e.Direction = DirSend then e.Data else []) ++ outboundOf id es

/-- The payloads, concatenated in arrival order, of the events of `es` that carry
identity `id` and have any direction other than Outbound. -/
def inboundOf (id : StreamID) : List RawEvent → List Byte
  | [] => []
  | e :: es => (if e.id = id ∧ e.Direction ≠ DirSend then e.Data else []) ++ inboundOf id es

/-- The stream `s` with `out` appended to its outbound buffer and `inb` to its
inbound buffer. -/
def extend (s : TCPStream) (out inb : List Byte) : TCPStream :=
  { s with SendBuffer := s.SendBuffer ++ out, RecvBuffer := s.RecvBuffer ++ inb }

/-- Whether some event of `es` carries identity `id`. -/
def carries (id : StreamID) (es : List RawEvent) : Bool := es.any (fun e => e.id = id)

/-- A call on the tracker. -/
inductive Call where
  | processEvent (e : RawEvent)
  | removeStream (id : StreamID)
  | cleanupOldStreams

/-- The tracker after one call. -/
def Call.apply (c : Call) (t : Tracker) : Tracker :=
  match c with
  | .processEvent e => (t.ProcessEvent e).1
  | .removeStream id => t.RemoveStream id
  | .cleanupOldStreams => t.CleanupOldStreams

/-- The tracker after the calls `cs`, in order, starting from `NewTracker`. -/
def runCalls (cs : List Call) : Tracker := cs.foldl (fun t c => c.apply t) NewTracker

/-- No tracked stream has its closed flag set. -/
def AllOpen (t : Tracker) : Prop := ∀ id s, t.GetStream id = some s → s.Closed = false

/-- A sample 41-byte header: timestamp 1, PID 100, TID 7, FD 5, direction tag `tag`,
declared payload length `lo + 256 * hi`, name field `c0 'b' 0 'c' 0 ...`. -/
def sampleHeader (tag lo hi c0 : Byte) : List Byte :=
  [1, 0, 0, 0, 0, 0, 0, 0,  100, 0, 0, 0,  7, 0, 0, 0,  5, 0, 0, 0,  tag,  lo, hi, 0, 0,
   c0, 98, 0, 99, 0, 0, 0, 0, 0, 0, 0, 0, 0, 0, 0, 0]

deriving instance DecidableEq for Except

/-! ## Facts about the decoder -/

theorem ReadFull_ok (s : List Byte) (i n : Nat) (hn : 0 < n) (h : i + n ≤ s.length) :
    ReadFull ⟨s, i⟩ n = .ok (field s i n, ⟨s, i + n⟩) := by
  have h1 : ¬ (n = 0) := by omega
  have h2 : ¬ (i ≥ s.length) := by omega
  have h3 : ((s.drop i).take n).length = n := by
    simp [List.length_take, List.length_drop]; omega
  simp [ReadFull, Reader.Read, h1, h2, h3, field]

theorem parseEvent_eq (data : List Byte) (h : 41 ≤ data.length) :
    parseEvent data =
      if 0 < littleEndian (field data 21 4) ∧ littleEndian (field data 21 4) ≤ maxDataSize then
        if data.length = 41 then .error Error.EOF
        else .ok (eventOf data ((data.drop 41).take (littleEndian (field data 21 4))))
      else .ok (eventOf data []) := by
  have h0 : ¬ (data.length < 8 + 4 + 4 + 4 + 1 + 4 + taskCommLen) := by
    simp [taskCommLen]; omega
  unfold parseEvent
  rw [if_neg h0]
  simp only [NewReader]
  rw [ReadFull_ok data 0 8 (by omega) (by omega)]
  simp only []
  rw [ReadFull_ok data (0+8) 4 (by omega) (by omega)]
  simp only []
  rw [ReadFull_ok data (0+8+4) 4 (by omega) (by omega)]
  simp only []
  rw [ReadFull_ok data (0+8+4+4) 4 (by omega) (by omega)]
  simp only []
  rw [ReadFull_ok data (0+8+4+4+4) 1 (by omega) (by omega)]
  simp only []
  rw [ReadFull_ok data (0+8+4+4+4+1) 4 (by omega) (by omega)]
  simp only []
  rw [ReadFull_ok data (0+8+4+4+4+1+4) taskCommLen (by simp [taskCommLen])
    (by simp [taskCommLen]; omega)]
  simp only [taskCommLen, Nat.zero_add, Nat.reduceAdd]
  by_cases hd : 0 < littleEndian (field data 21 4) ∧ littleEndian (field data 21 4) ≤ maxDataSize
  · have hd1 : littleEndian (field data 21 4) > 0 ∧
        littleEndian (field data 21 4) ≤ maxDataSize := hd
    rw [if_pos hd1, if_pos hd]
    by_cases hl : data.length = 41
    · have : (41 : Nat) ≥ data.length := by omega
      simp [Reader.Read, hl, this]
    · have : ¬ ((41 : Nat) ≥ data.length) := by omega
      simp [Reader.Read, hl, this, eventOf, commOf]
  · have hd1 : ¬ (littleEndian (field data 21 4) > 0 ∧
        littleEndian (field data 21 4) ≤ maxDataSize) := hd
    rw [if_neg hd1, if_neg hd]
    simp [eventOf, commOf]


namespace GoTime

theorem toInt64_of_range (x : Int) (h1 : -2 ^ 63 ≤ x) (h2 : x < 2 ^ 63) : toInt64 x = x := by
  unfold toInt64; omega

theorem toInt32_of_range (x : Int) (h1 : -2 ^ 31 ≤ x) (h2 : x < 2 ^ 31) : toInt32 x = x := by
  unfold toInt32; omega

theorem and_hasMonotonic (w : Nat) (h : w < 2 ^ 63) : w &&& hasMonotonic = 0 := by
  apply Nat.eq_of_testBit_eq
  intro i
  have h63 : hasMonotonic = 2 ^ 63 := by decide
  rw [Nat.testBit_and, h63, Nat.testBit_two_pow, Nat.zero_testBit]
  by_cases hi : 63 = i
  · subst hi
    simp [Nat.testBit_lt_two_pow h]
  · simp [hi]

theorem and_nsecMask (w : Nat) (h : w < 2 ^ 30) : w &&& nsecMask = w := by
  have h30 : nsecMask = 2 ^ 30 - 1 := by decide
  rw [h30, Nat.and_pow_two_sub_one_eq_mod, Nat.mod_eq_of_lt h]

/-- An instant built by `unixTime` from a nanosecond count in `[0, 1e9)` reads back
as `sec * 1e9 + nsec` (in `int64`). -/
theorem UnixNano_unixTime (sec nsec : Int) (hn1 : 0 ≤ nsec) (hn2 : nsec < 1000000000) :
    (unixTime sec nsec).UnixNano = toInt64 (sec * 1000000000 + nsec) := by
  have hw : toUint64 nsec = nsec.toNat := by
    unfold toUint64
    congr 1
    omega
  have hwlt : nsec.toNat < 2 ^ 30 := by omega
  have hwlt2 : nsec.toNat < 2 ^ 63 := by omega
  have hu : unixToInternal = 62135596800 := by decide
  unfold Time.UnixNano Time.unixSec Time.sec Time.nsec unixTime
  simp only [hw, and_hasMonotonic _ hwlt2, and_nsecMask _ hwlt, ne_eq, not_true_eq_false,
    if_false, internalToUnix, hu]
  have hcast : ((nsec.toNat : Nat) : Int) = nsec := by omega
  rw [hcast]
  unfold toInt64 toInt32
  omega

theorem tdiv_billion (v : Int) :
    Int.tdiv v 1000000000 = if 0 ≤ v then v / 1000000000 else -((-v) / 1000000000) := by
  by_cases h : 0 ≤ v
  · rw [if_pos h, Int.tdiv_eq_ediv h (by decide)]
  · rw [if_neg h]
    have h1 : v = -(-v) := by omega
    rw [h1, Int.neg_tdiv, Int.tdiv_eq_ediv (by omega) (by decide)]
    simp

theorem UnixNano_Unix (v : Int) (h1 : -2 ^ 63 ≤ v) (h2 : v < 2 ^ 63) :
    (Unix 0 v).UnixNano = v := by
  unfold Unix
  by_cases hc : v < 0 ∨ v ≥ 1000000000
  · rw [if_pos hc, tdiv_billion]
    by_cases hv : 0 ≤ v
    · rw [if_pos hv]
      have e1 : toInt64 (v / 1000000000 * 1000000000) = v / 1000000000 * 1000000000 :=
        toInt64_of_range _ (by omega) (by omega)
      have e2 : toInt64 (v - v / 1000000000 * 1000000000) = v - v / 1000000000 * 1000000000 :=
        toInt64_of_range _ (by omega) (by omega)
      have e3 : toInt64 (0 + v / 1000000000) = v / 1000000000 := by
        rw [toInt64_of_range _ (by omega) (by omega)]; omega
      simp only [e1, e2, e3]
      have hn : ¬ (v - v / 1000000000 * 1000000000 < 0) := by omega
      rw [if_neg hn, toInt32_of_range _ (by omega) (by omega),
        UnixNano_unixTime _ _ (by omega) (by omega)]
      unfold toInt64; omega
    · rw [if_neg hv]
      have e1 : toInt64 (-(-v / 1000000000) * 1000000000) = -(-v / 1000000000) * 1000000000 :=
        toInt64_of_range _ (by omega) (by omega)
      have e2 : toInt64 (v - -(-v / 1000000000) * 1000000000)
          = v - -(-v / 1000000000) * 1000000000 :=
        toInt64_of_range _ (by omega) (by omega)
      have e3 : toInt64 (0 + -(-v / 1000000000)) = -(-v / 1000000000) := by
        rw [toInt64_of_range _ (by omega) (by omega)]; omega
      simp only [e1, e2, e3]
      by_cases hn : v - -(-v / 1000000000) * 1000000000 < 0
      · rw [if_pos hn]
        rw [toInt64_of_range (-(-v / 1000000000) - 1) (by omega) (by omega),
          toInt64_of_range (v - -(-v / 1000000000) * 1000000000 + 1000000000)
            (by omega) (by omega),
          toInt32_of_range _ (by omega) (by omega),
          UnixNano_unixTime _ _ (by omega) (by omega)]
        unfold toInt64; omega
      · rw [if_neg hn, toInt32_of_range _ (by omega) (by omega),
          UnixNano_unixTime _ _ (by omega) (by omega)]
        unfold toInt64; omega
  · rw [if_neg hc]
    rw [toInt32_of_range v (by omega) (by omega), UnixNano_unixTime 0 v (by omega) (by omega)]
    unfold toInt64; omega

theorem toUint64_toInt64 (n : Nat) (h : n < 2 ^ 64) : toUint64 (toInt64 (n : Int)) = n := by
  unfold toUint64 toInt64; omega

end GoTime

/-! ## Little-endian fields -/

theorem littleEndian_lt (bs : List Byte) : littleEndian bs < 256 ^ bs.length := by
  induction bs with
  | nil => simp [littleEndian]
  | cons b bs ih =>
    have hb := b.isLt
    simp only [littleEndian, List.length_cons, pow_succ]
    omega

theorem encodeLE_littleEndian (bs : List Byte) : encodeLE bs.length (littleEndian bs) = bs := by
  induction bs with
  | nil => rfl
  | cons b bs ih =>
    have hb := b.isLt
    have h1 : (b.val + 256 * littleEndian bs) / 256 = littleEndian bs := by omega
    have h2 : (Fin.ofNat (b.val + 256 * littleEndian bs) : Byte) = b := by
      apply Fin.ext
      show (b.val + 256 * littleEndian bs) % 256 = b.val
      omega
    simp only [littleEndian, List.length_cons, encodeLE, h1, h2, ih]

theorem length_field (data : List Byte) (off n : Nat) (h : off + n ≤ data.length) :
    (field data off n).length = n := by
  simp [field, List.length_take, List.length_drop]; omega

theorem field_one (data : List Byte) (off : Nat) (b : Byte) (h : data[off]? = some b) :
    field data off 1 = [b] := by
  unfold field
  induction data generalizing off with
  | nil => simp at h
  | cons a as ih =>
    cases off with
    | zero =>
      simp at h
      simp [h]
    | succ k =>
      simp at h
      simpa using ih k h

/-! ## The name field -/

theorem commLoop_eq (pre suf : List Byte) :
    commLoop (pre ++ suf) suf pre.length =
      if (0 : Byte) ∈ suf then pre ++ suf.takeWhile (fun b => b ≠ 0) else [] := by
  induction suf generalizing pre with
  | nil => simp [commLoop]
  | cons b bs ih =>
    by_cases hb : b = 0
    · subst hb
      simp [commLoop]
    · have h := ih (pre ++ [b])
      simp only [List.append_assoc, List.singleton_append, List.length_append,
        List.length_singleton] at h
      have hb2 : ¬ (0 : Byte) = b := fun h => hb h.symm
      simp [commLoop, hb, hb2, h]

/-- What the code computes for the name: the bytes before the first zero byte,
except that a field starting with a zero byte (as one without any) is
returned whole. -/
theorem commOf_eq (comm : List Byte) :
    commOf comm =
      if comm.takeWhile (fun b => b ≠ 0) = [] then comm else comm.takeWhile (fun b => b ≠ 0) := by
  have h := commLoop_eq [] comm
  simp only [List.nil_append, List.length_nil] at h
  unfold commOf
  rw [h]
  by_cases hz : (0 : Byte) ∈ comm
  · simp [hz]
  · have : comm.takeWhile (fun b => b ≠ 0) = comm := by
      rw [List.takeWhile_eq_self_iff]
      intro x hx
      have : x ≠ 0 := fun h => hz (h ▸ hx)
      simpa using this
    rw [if_neg hz, this]
    simp

/-! ## Shape of a successful decode -/

theorem parseEvent_ok (data : List Byte) (e : RawEvent) (h : parseEvent data = .ok e) :
    41 ≤ data.length ∧
    ¬ (0 < declaredLen data ∧ declaredLen data ≤ maxDataSize ∧ data.length = 41) ∧
    e = eventOf data (if 0 < declaredLen data ∧ declaredLen data ≤ maxDataSize
          then (data.drop 41).take (declaredLen data) else []) := by
  by_cases hl : 41 ≤ data.length
  · rw [parseEvent_eq data hl] at h
    unfold declaredLen
    by_cases hd : 0 < littleEndian (field data 21 4) ∧ littleEndian (field data 21 4) ≤ maxDataSize
    · rw [if_pos hd] at h
      by_cases h41 : data.length = 41
      · rw [if_pos h41] at h; cases h
      · rw [if_neg h41] at h
        injection h with h
        refine ⟨hl, fun hc => h41 hc.2.2, ?_⟩
        rw [if_pos hd]; exact h.symm
    · rw [if_neg hd] at h
      injection h with h
      refine ⟨hl, fun hc => hd ⟨hc.1, hc.2.1⟩, ?_⟩
      rw [if_neg hd]; exact h.symm
  · have : data.length < 8 + 4 + 4 + 4 + 1 + 4 + taskCommLen := by
      simp [taskCommLen]; omega
    unfold parseEvent at h
    rw [if_pos this] at h
    cases h

theorem getElem?_field (data : List Byte) (off n k : Nat) :
    (field data off n)[k]? = if k < n then data[off + k]? else none := by
  simp [field, List.getElem?_take, List.getElem?_drop]

theorem field_set (data : List Byte) (i : Nat) (b : Byte) (off n : Nat)
    (h : i < off ∨ off + n ≤ i) : field (data.set i b) off n = field data off n := by
  apply List.ext_getElem?
  intro k
  rw [getElem?_field, getElem?_field]
  split
  · rw [List.getElem?_set_ne (by omega)]
  · rfl

theorem direction_eventOf (data : List Byte) (p : List Byte) (b : Byte)
    (h : data[20]? = some b) :
    (eventOf data p).Direction = if b = 1 then DirSend else DirRecv := by
  have hv : (b.val = eventTypeSend) ↔ b = 1 := by
    constructor
    · intro hb; exact Fin.ext hb
    · intro hb; subst hb; rfl
  simp only [eventOf, field_one data 20 b h, littleEndian, Nat.mul_zero, Nat.add_zero]
  by_cases hb : b = 1
  · rw [if_pos hb, if_pos (hv.2 hb)]
  · rw [if_neg hb, if_neg (fun hc => hb (hv.1 hc))]

/-! ## The decoder: claims -/

/-- C9: every input shorter than 41 bytes is rejected: `parseEvent` returns its
"event data too short" error and no event. -/
theorem parseEvent_short_fails (data : List Byte) (h : data.length < 41) :
    parseEvent data = .error Error.tooShort ∧ ∀ e, parseEvent data ≠ .ok e := by
  have h0 : data.length < 8 + 4 + 4 + 4 + 1 + 4 + taskCommLen := by
    simp [taskCommLen]; omega
  have h1 : parseEvent data = .error Error.tooShort := by
    unfold parseEvent
    rw [if_pos h0]
  refine ⟨h1, ?_⟩
  intro e he
  rw [h1] at he
  cases he

theorem parseEvent_short_fails_witness :
    (sampleHeader 1 0 0 97).dropLast.length < 41 ∧
    (parseEvent (sampleHeader 1 0 0 97).dropLast = .error Error.tooShort ∧
      ∀ e, parseEvent (sampleHeader 1 0 0 97).dropLast ≠ .ok e) :=
  ⟨by decide, parseEvent_short_fails _ (by decide)⟩

/-- C1, as stated, fails: a 41-byte input (no byte after the header) that declares
a payload of one byte is rejected with `io.EOF`; no event is returned. -/
theorem parseEvent_header_only_fails :
    41 ≤ (sampleHeader 1 1 0 97).length ∧
    declaredLen (sampleHeader 1 1 0 97) = 1 ∧
    parseEvent (sampleHeader 1 1 0 97) = .error Error.EOF ∧
    ¬ ∃ e, parseEvent (sampleHeader 1 1 0 97) = .ok e := by
  have h : parseEvent (sampleHeader 1 1 0 97) = .error Error.EOF := by decide
  refine ⟨by decide, by decide, h, ?_⟩
  rintro ⟨e, he⟩
  rw [h] at he
  cases he

/-- C1, amended: an input of at least 41 bytes fails, with `io.EOF`, exactly when
its declared payload length is between 1 and 16384 and no byte follows the
header; in every other case an event is returned, its payload is no longer
than the declared length, and it is strictly shorter when the declared length
exceeds the bytes that follow the header or exceeds 16384. -/
theorem parseEvent_lenient (data : List Byte) (h : 41 ≤ data.length) :
    (0 < declaredLen data ∧ declaredLen data ≤ maxDataSize ∧ data.length = 41 →
      parseEvent data = .error Error.EOF) ∧
    (¬ (0 < declaredLen data ∧ declaredLen data ≤ maxDataSize ∧ data.length = 41) →
      ∃ e, parseEvent data = .ok e ∧ e.Data.length ≤ declaredLen data ∧
        (data.length - 41 < declaredLen data ∨ maxDataSize < declaredLen data →
          e.Data.length < declaredLen data)) := by
  rw [parseEvent_eq data h]
  unfold declaredLen
  constructor
  · rintro ⟨h1, h2, h3⟩
    rw [if_pos ⟨h1, h2⟩, if_pos h3]
  · intro hn
    by_cases hd : 0 < littleEndian (field data 21 4) ∧ littleEndian (field data 21 4) ≤ maxDataSize
    · have h41 : ¬ data.length = 41 := fun hc => hn ⟨hd.1, hd.2, hc⟩
      rw [if_pos hd, if_neg h41]
      refine ⟨_, rfl, ?_, ?_⟩
      · simp [eventOf, List.length_take]
      · intro hc
        simp only [eventOf, List.length_take, List.length_drop]
        omega
    · rw [if_neg hd]
      refine ⟨_, rfl, ?_, ?_⟩
      · simp [eventOf]
      · intro hc
        simp only [eventOf, List.length_nil]
        unfold maxDataSize at hd hc
        omega

theorem parseEvent_lenient_witness :
    41 ≤ (sampleHeader 1 5 0 97 ++ [65, 66]).length ∧
    ((0 < declaredLen (sampleHeader 1 5 0 97 ++ [65, 66]) ∧
        declaredLen (sampleHeader 1 5 0 97 ++ [65, 66]) ≤ maxDataSize ∧
        (sampleHeader 1 5 0 97 ++ [65, 66]).length = 41 →
      parseEvent (sampleHeader 1 5 0 97 ++ [65, 66]) = .error Error.EOF) ∧
    (¬ (0 < declaredLen (sampleHeader 1 5 0 97 ++ [65, 66]) ∧
        declaredLen (sampleHeader 1 5 0 97 ++ [65, 66]) ≤ maxDataSize ∧
        (sampleHeader 1 5 0 97 ++ [65, 66]).length = 41) →
      ∃ e, parseEvent (sampleHeader 1 5 0 97 ++ [65, 66]) = .ok e ∧
        e.Data.length ≤ declaredLen (sampleHeader 1 5 0 97 ++ [65, 66]) ∧
        ((sampleHeader 1 5 0 97 ++ [65, 66]).length - 41 <
            declaredLen (sampleHeader 1 5 0 97 ++ [65, 66]) ∨
          maxDataSize < declaredLen (sampleHeader 1 5 0 97 ++ [65, 66]) →
          e.Data.length < declaredLen (sampleHeader 1 5 0 97 ++ [65, 66])))) :=
  ⟨by decide, parseEvent_lenient _ (by decide)⟩

/-- C2, as stated, fails: with a declared payload length of 16385 and one byte
after the header the event is returned with an empty payload, not with the
first `min(16385, 1, 16384) = 1` bytes that follow the header. -/
theorem parseEvent_over_cap_not_truncated :
    declaredLen (sampleHeader 1 1 64 97 ++ [65]) = 16385 ∧
    ∃ e, parseEvent (sampleHeader 1 1 64 97 ++ [65]) = .ok e ∧
      e.Data = [] ∧
      ((sampleHeader 1 1 64 97 ++ [65]).drop 41).take
        (min (min (declaredLen (sampleHeader 1 1 64 97 ++ [65]))
          ((sampleHeader 1 1 64 97 ++ [65]).drop 41).length) 16384) = [65] ∧
      e.Data ≠ ((sampleHeader 1 1 64 97 ++ [65]).drop 41).take
        (min (min (declaredLen (sampleHeader 1 1 64 97 ++ [65]))
          ((sampleHeader 1 1 64 97 ++ [65]).drop 41).length) 16384) :=
  ⟨by decide, eventOf (sampleHeader 1 1 64 97 ++ [65]) [], by decide, by decide, by decide,
    by decide⟩

/-- C2, amended: when `parseEvent` decodes an input, with declared payload length
`d` and trailing bytes `r` (the input from offset 41 on), the payload is the
first `min(d, len(r))` bytes of `r` if `d` is at most 16384, and is empty if `d`
exceeds 16384. -/
theorem parseEvent_payload (data : List Byte) (e : RawEvent) (h : parseEvent data = .ok e) :
    e.Data = if declaredLen data ≤ maxDataSize
      then (data.drop 41).take (min (declaredLen data) (data.drop 41).length)
      else [] := by
  obtain ⟨_, _, he⟩ := parseEvent_ok data e h
  have hD : e.Data = (if 0 < declaredLen data ∧ declaredLen data ≤ maxDataSize
      then (data.drop 41).take (declaredLen data) else []) := by
    rw [he]; rfl
  rw [hD]
  by_cases h1 : declaredLen data ≤ maxDataSize
  · rw [if_pos h1]
    by_cases h0 : 0 < declaredLen data
    · rw [if_pos ⟨h0, h1⟩]
      by_cases hle : declaredLen data ≤ (data.drop 41).length
      · rw [Nat.min_eq_left hle]
      · rw [Nat.min_eq_right (by omega), List.take_length,
          List.take_of_length_le (by omega)]
    · rw [if_neg (fun hc => h0 hc.1)]
      have : declaredLen data = 0 := by omega
      simp [this]
  · rw [if_neg h1, if_neg (fun hc => h1 hc.2)]

theorem parseEvent_payload_witness :
    parseEvent (sampleHeader 1 5 0 97 ++ [65, 66]) =
      .ok (eventOf (sampleHeader 1 5 0 97 ++ [65, 66]) [65, 66]) ∧
    (eventOf (sampleHeader 1 5 0 97 ++ [65, 66]) [65, 66]).Data =
      if declaredLen (sampleHeader 1 5 0 97 ++ [65, 66]) ≤ maxDataSize
      then ((sampleHeader 1 5 0 97 ++ [65, 66]).drop 41).take
        (min (declaredLen (sampleHeader 1 5 0 97 ++ [65, 66]))
          ((sampleHeader 1 5 0 97 ++ [65, 66]).drop 41).length)
      else [] :=
  ⟨by decide, parseEvent_payload _ _ (by decide)⟩

/-- C5: when `parseEvent` decodes an input, the payload of the event is never
longer than `min(declared length, bytes after the 41-byte header, 16384)`. -/
theorem parseEvent_payload_length (data : List Byte) (e : RawEvent)
    (h : parseEvent data = .ok e) :
    e.Data.length ≤ min (min (declaredLen data) (data.length - 41)) 16384 := by
  rw [parseEvent_payload data e h]
  by_cases h1 : declaredLen data ≤ maxDataSize
  · rw [if_pos h1]
    unfold maxDataSize at h1
    simp only [List.length_take, List.length_drop]
    omega
  · rw [if_neg h1]
    simp

theorem parseEvent_payload_length_witness :
    parseEvent (sampleHeader 2 3 0 97 ++ [65, 66, 67, 68]) =
      .ok (eventOf (sampleHeader 2 3 0 97 ++ [65, 66, 67, 68]) [65, 66, 67]) ∧
    (eventOf (sampleHeader 2 3 0 97 ++ [65, 66, 67, 68]) [65, 66, 67]).Data.length ≤
      min (min (declaredLen (sampleHeader 2 3 0 97 ++ [65, 66, 67, 68]))
        ((sampleHeader 2 3 0 97 ++ [65, 66, 67, 68]).length - 41)) 16384 :=
  ⟨by decide, parseEvent_payload_length _ _ (by decide)⟩

/-- C8: when `parseEvent` decodes an input, the direction of the event is Outbound
(`DirSend`) if and only if the tag byte at offset 20 is 1, and Inbound
(`DirRecv`) for every other tag; and replacing the tag by any byte value
still yields an event, never an error. -/
theorem parseEvent_direction (data : List Byte) (e : RawEvent) (h : parseEvent data = .ok e) :
    (e.Direction = DirSend ↔ data[20]? = some 1) ∧
    (data[20]? ≠ some 1 → e.Direction = DirRecv) ∧
    (∀ b : Byte, ∃ e1, parseEvent (data.set 20 b) = .ok e1 ∧
      (e1.Direction = DirSend ↔ b = 1) ∧ (b ≠ 1 → e1.Direction = DirRecv)) := by
  obtain ⟨hl, hn, he0⟩ := parseEvent_ok data e h
  obtain ⟨p, he⟩ : ∃ p, e = eventOf data p := ⟨_, he0⟩
  have hne : DirRecv ≠ DirSend := by decide
  have key : ∀ (d : List Byte) (p : List Byte) (b : Byte), d[20]? = some b →
      (((eventOf d p).Direction = DirSend ↔ b = 1) ∧
        (b ≠ 1 → (eventOf d p).Direction = DirRecv)) := by
    intro d p b hb
    rw [direction_eventOf d p b hb]
    by_cases hb1 : b = 1
    · simp [hb1]
    · simp [hb1, hne]
  have h20 : 20 < data.length := by omega
  have hget : data[20]? = some (data[20]) := List.getElem?_eq_getElem h20
  refine ⟨?_, ?_, ?_⟩
  · rw [he, hget]
    rw [(key data p _ hget).1]
    simp
  · rw [he, hget]
    intro hb
    exact (key data p _ hget).2 (fun hc => hb (by rw [hc]))
  · intro b
    have hl2 : 41 ≤ (data.set 20 b).length := by simpa using hl
    have hd : declaredLen (data.set 20 b) = declaredLen data := by
      unfold declaredLen
      rw [field_set data 20 b 21 4 (by omega)]
    have hset : (data.set 20 b)[20]? = some b := by
      rw [List.getElem?_set_self (by omega)]
    have hp := (parseEvent_lenient (data.set 20 b) hl2).2
      (by rw [hd, List.length_set]; exact hn)
    obtain ⟨e1, he1, _⟩ := hp
    obtain ⟨_, _, he1eq⟩ := parseEvent_ok _ _ he1
    refine ⟨e1, he1, ?_⟩
    rw [he1eq]
    exact key _ _ _ hset

theorem parseEvent_direction_witness :
    parseEvent (sampleHeader 3 1 0 97 ++ [65]) =
      .ok (eventOf (sampleHeader 3 1 0 97 ++ [65]) [65]) ∧
    (((eventOf (sampleHeader 3 1 0 97 ++ [65]) [65]).Direction = DirSend ↔
        (sampleHeader 3 1 0 97 ++ [65])[20]? = some 1) ∧
      ((sampleHeader 3 1 0 97 ++ [65])[20]? ≠ some 1 →
        (eventOf (sampleHeader 3 1 0 97 ++ [65]) [65]).Direction = DirRecv) ∧
      (∀ b : Byte, ∃ e1, parseEvent ((sampleHeader 3 1 0 97 ++ [65]).set 20 b) = .ok e1 ∧
        (e1.Direction = DirSend ↔ b = 1) ∧ (b ≠ 1 → e1.Direction = DirRecv))) :=
  ⟨by decide, parseEvent_direction _ _ (by decide)⟩

/-- The name of a decoded event, in general: the bytes of the name field before
its first zero byte when that is not empty, and the whole 16-byte field
otherwise (no zero byte at all, or a zero byte in first position). -/
theorem parseEvent_comm (data : List Byte) (e : RawEvent) (h : parseEvent data = .ok e) :
    e.Comm =
      if (field data 25 16).takeWhile (fun b => b ≠ 0) = [] then field data 25 16
      else (field data 25 16).takeWhile (fun b => b ≠ 0) := by
  obtain ⟨_, _, he⟩ := parseEvent_ok data e h
  rw [← commOf_eq, he]
  rfl

/-- C3, at a failing input: the name field of this record starts with a zero byte
(it is `0 'b' 0 'c' 0 ...`), so the bytes before the first zero byte are the
empty name; `parseEvent` returns the whole 16-byte field, zero bytes
included, as the name. -/
theorem parseEvent_comm_leading_zero :
    (field (sampleHeader 1 0 0 0) 25 16)[0]? = some 0 ∧
    (field (sampleHeader 1 0 0 0) 25 16).takeWhile (fun b => b ≠ 0) = [] ∧
    ∃ e, parseEvent (sampleHeader 1 0 0 0) = .ok e ∧
      e.Comm = [0, 98, 0, 99, 0, 0, 0, 0, 0, 0, 0, 0, 0, 0, 0, 0] ∧
      e.Comm = field (sampleHeader 1 0 0 0) 25 16 ∧
      e.Comm ≠ [] :=
  ⟨by decide, by decide, eventOf (sampleHeader 1 0 0 0) [], by decide, by decide, by decide,
    by decide⟩

/-- C4: when `parseEvent` decodes an input, the timestamp of the event, read back
as nanoseconds since the Unix epoch and converted to `uint64`, and its PID, TID
and Fd are the little-endian integers at offsets 0..7, 8..11, 12..15 and
16..19; encoding them again in little-endian gives back those input bytes.
This holds for every 64-bit timestamp, also from `2^63` on. -/
theorem parseEvent_header_roundtrip (data : List Byte) (e : RawEvent)
    (h : parseEvent data = .ok e) :
    GoTime.toUint64 e.Timestamp.UnixNano = littleEndian (field data 0 8) ∧
    e.PID = littleEndian (field data 8 4) ∧
    e.TID = littleEndian (field data 12 4) ∧
    e.Fd = littleEndian (field data 16 4) ∧
    encodeLE 8 (GoTime.toUint64 e.Timestamp.UnixNano) = field data 0 8 ∧
    encodeLE 4 e.PID = field data 8 4 ∧
    encodeLE 4 e.TID = field data 12 4 ∧
    encodeLE 4 e.Fd = field data 16 4 := by
  obtain ⟨hl, _, he0⟩ := parseEvent_ok data e h
  obtain ⟨p, he⟩ : ∃ p, e = eventOf data p := ⟨_, he0⟩
  have l8 := length_field data 0 8 (by omega)
  have l4a := length_field data 8 4 (by omega)
  have l4b := length_field data 12 4 (by omega)
  have l4c := length_field data 16 4 (by omega)
  have hlt : littleEndian (field data 0 8) < 2 ^ 64 := by
    have := littleEndian_lt (field data 0 8)
    rw [l8] at this
    exact this
  have hts : GoTime.toUint64 e.Timestamp.UnixNano = littleEndian (field data 0 8) := by
    have hT : e.Timestamp =
        GoTime.Unix 0 (GoTime.toInt64 ((littleEndian (field data 0 8) : Nat) : Int)) := by
      rw [he]; simp only [eventOf]
    rw [hT, GoTime.UnixNano_Unix _ (by unfold GoTime.toInt64; omega)
      (by unfold GoTime.toInt64; omega)]
    exact GoTime.toUint64_toInt64 _ hlt
  have hpid : e.PID = littleEndian (field data 8 4) := by rw [he]; rfl
  have htid : e.TID = littleEndian (field data 12 4) := by rw [he]; rfl
  have hfd : e.Fd = littleEndian (field data 16 4) := by rw [he]; rfl
  refine ⟨hts, hpid, htid, hfd, ?_, ?_, ?_, ?_⟩
  · rw [hts]
    have := encodeLE_littleEndian (field data 0 8)
    rwa [l8] at this
  · rw [hpid]
    have := encodeLE_littleEndian (field data 8 4)
    rwa [l4a] at this
  · rw [htid]
    have := encodeLE_littleEndian (field data 12 4)
    rwa [l4b] at this
  · rw [hfd]
    have := encodeLE_littleEndian (field data 16 4)
    rwa [l4c] at this

set_option maxRecDepth 100000 in
theorem parseEvent_header_roundtrip_witness :
    parseEvent (List.replicate 8 255 ++ (sampleHeader 1 0 0 97).drop 8) =
      .ok (eventOf (List.replicate 8 255 ++ (sampleHeader 1 0 0 97).drop 8) []) ∧
    (GoTime.toUint64
        (eventOf (List.replicate 8 255 ++ (sampleHeader 1 0 0 97).drop 8) []).Timestamp.UnixNano
        = littleEndian (field (List.replicate 8 255 ++ (sampleHeader 1 0 0 97).drop 8) 0 8) ∧
      (eventOf (List.replicate 8 255 ++ (sampleHeader 1 0 0 97).drop 8) []).PID =
        littleEndian (field (List.replicate 8 255 ++ (sampleHeader 1 0 0 97).drop 8) 8 4) ∧
      (eventOf (List.replicate 8 255 ++ (sampleHeader 1 0 0 97).drop 8) []).TID =
        littleEndian (field (List.replicate 8 255 ++ (sampleHeader 1 0 0 97).drop 8) 12 4) ∧
      (eventOf (List.replicate 8 255 ++ (sampleHeader 1 0 0 97).drop 8) []).Fd =
        littleEndian (field (List.replicate 8 255 ++ (sampleHeader 1 0 0 97).drop 8) 16 4) ∧
      encodeLE 8 (GoTime.toUint64
          (eventOf (List.replicate 8 255 ++ (sampleHeader 1 0 0 97).drop 8) []).Timestamp.UnixNano)
        = field (List.replicate 8 255 ++ (sampleHeader 1 0 0 97).drop 8) 0 8 ∧
      encodeLE 4 (eventOf (List.replicate 8 255 ++ (sampleHeader 1 0 0 97).drop 8) []).PID =
        field (List.replicate 8 255 ++ (sampleHeader 1 0 0 97).drop 8) 8 4 ∧
      encodeLE 4 (eventOf (List.replicate 8 255 ++ (sampleHeader 1 0 0 97).drop 8) []).TID =
        field (List.replicate 8 255 ++ (sampleHeader 1 0 0 97).drop 8) 12 4 ∧
      encodeLE 4 (eventOf (List.replicate 8 255 ++ (sampleHeader 1 0 0 97).drop 8) []).Fd =
        field (List.replicate 8 255 ++ (sampleHeader 1 0 0 97).drop 8) 16 4) :=
  ⟨by decide, parseEvent_header_roundtrip _ _ (by decide)⟩

/-! ## The tracker: one call -/

theorem ProcessEvent_snd (t : Tracker) (e : RawEvent) :
    (t.ProcessEvent e).2 =
      { ID := ((t.GetStream e.id).getD (NewTCPStream e.id)).ID,
        SendBuffer := ((t.GetStream e.id).getD (NewTCPStream e.id)).SendBuffer ++
          (if e.Direction = DirSend then e.Data else []),
        RecvBuffer := ((t.GetStream e.id).getD (NewTCPStream e.id)).RecvBuffer ++
          (if e.Direction ≠ DirSend then e.Data else []),
        Closed := ((t.GetStream e.id).getD (NewTCPStream e.id)).Closed } := by
  unfold Tracker.ProcessEvent Tracker.GetStream RawEvent.id
  simp only [Buffer.Write]
  cases hlk : t.streams.lookup { PID := e.PID, Fd := e.Fd } with
  | none =>
    by_cases hd : e.Data.length > 0
    · by_cases hs : e.Direction = DirSend
      · simp [hd, hs, NewTCPStream]
      · simp [hd, hs, NewTCPStream]
    · have : e.Data = [] := by
        cases hD : e.Data with
        | nil => rfl
        | cons a as => rw [hD] at hd; simp at hd
      simp [this, NewTCPStream]
  | some s =>
    by_cases hd : e.Data.length > 0
    · by_cases hs : e.Direction = DirSend
      · simp [hd, hs]
      · simp [hd, hs]
    · have : e.Data = [] := by
        cases hD : e.Data with
        | nil => rfl
        | cons a as => rw [hD] at hd; simp at hd
      simp [this]

theorem GetStream_ProcessEvent (t : Tracker) (e : RawEvent) (id : StreamID) :
    (t.ProcessEvent e).1.GetStream id =
      if id = e.id then some (t.ProcessEvent e).2 else t.GetStream id := by
  by_cases h : id = e.id
  · rw [if_pos h, h]
    unfold Tracker.ProcessEvent Tracker.GetStream RawEvent.id
    simp only [AList.lookup_insert]
  · rw [if_neg h]
    unfold Tracker.ProcessEvent Tracker.GetStream
    simp only []
    exact AList.lookup_insert_ne h

theorem GetStream_RemoveStream (t : Tracker) (id0 id : StreamID) :
    (t.RemoveStream id0).GetStream id = if id = id0 then none else t.GetStream id := by
  unfold Tracker.RemoveStream Tracker.GetStream
  by_cases h : id = id0
  · rw [if_pos h, h]; exact AList.lookup_erase _ _
  · rw [if_neg h]; exact AList.lookup_erase_ne h

/-- The range loop of `CleanupOldStreams`, run over any list of entries `l` from any
table `m`: a key is gone if the loop met it with a stream to delete, and is
looked up as in `m` otherwise. -/
theorem lookup_foldl_cleanup (l : List (Sigma fun _ : StreamID => TCPStream))
    (m : AList (fun _ : StreamID => TCPStream)) (id : StreamID) :
    (l.foldl (fun m e => if cleanupCond e.2 then m.erase e.1 else m) m).lookup id =
      if l.any (fun e => decide (e.1 = id) && cleanupCond e.2) then none else m.lookup id := by
  induction l generalizing m with
  | nil => simp
  | cons e l ih =>
    rw [List.foldl_cons, ih, List.any_cons]
    cases hany : l.any (fun e => decide (e.1 = id) && cleanupCond e.2) with
    | true => simp
    | false =>
      by_cases hc : cleanupCond e.2 = true
      · by_cases hid : e.1 = id
        · simp [hc, hid]
        · have hne : id ≠ e.1 := fun h => hid h.symm
          simp [hc, hid, AList.lookup_erase_ne hne]
      · simp [hc]

theorem foldl_cleanup_id (l : List (Sigma fun _ : StreamID => TCPStream))
    (m : AList (fun _ : StreamID => TCPStream))
    (h : ∀ e ∈ l, cleanupCond e.2 = false) :
    l.foldl (fun m e => if cleanupCond e.2 then m.erase e.1 else m) m = m := by
  induction l generalizing m with
  | nil => rfl
  | cons e l ih =>
    rw [List.foldl_cons, h e (List.mem_cons_self _ _)]
    exact ih m (fun x hx => h x (List.mem_cons_of_mem _ hx))

theorem mem_entries_iff (t : Tracker) (id : StreamID) (s : TCPStream) :
    (⟨id, s⟩ : Sigma fun _ : StreamID => TCPStream) ∈ t.streams.entries ↔
      t.GetStream id = some s := by
  unfold Tracker.GetStream
  rw [← AList.mem_lookup_iff]
  simp

theorem GetStream_CleanupOldStreams (t : Tracker) (id : StreamID) :
    t.CleanupOldStreams.GetStream id =
      match t.GetStream id with
      | some s => if cleanupCond s then none else some s
      | none => none := by
  have h := lookup_foldl_cleanup t.streams.entries t.streams id
  unfold Tracker.CleanupOldStreams
  show AList.lookup id _ = _
  rw [h]
  cases hg : t.GetStream id with
  | none =>
    have hany : t.streams.entries.any (fun e => decide (e.1 = id) && cleanupCond e.2) = false := by
      rw [List.any_eq_false]
      intro e he
      have : e.1 ≠ id := by
        intro hid
        have hm : t.GetStream e.1 = some e.2 := (mem_entries_iff t e.1 e.2).1 he
        rw [hid, hg] at hm
        cases hm
      simp [this]
    rw [hany]
    simpa [Tracker.GetStream] using hg
  | some s =>
    have hmem := (mem_entries_iff t id s).2 hg
    by_cases hc : cleanupCond s = true
    · have hany : t.streams.entries.any (fun e => decide (e.1 = id) && cleanupCond e.2) = true := by
        rw [List.any_eq_true]
        exact ⟨⟨id, s⟩, hmem, by simp [hc]⟩
      rw [hany]
      simp [hc]
    · have hany : t.streams.entries.any (fun e => decide (e.1 = id) && cleanupCond e.2)
          = false := by
        rw [List.any_eq_false]
        intro e he
        have hm : t.GetStream e.1 = some e.2 := (mem_entries_iff t e.1 e.2).1 he
        by_cases hid : e.1 = id
        · rw [hid, hg] at hm
          have : s = e.2 := by injection hm
          rw [← this]
          simp [hc]
        · simp [hid]
      rw [hany]
      have hl : AList.lookup id t.streams = some s := hg
      simp [hc, hl]

theorem cleanupCond_iff (s : TCPStream) :
    cleanupCond s = true ↔ s.SendBuffer = [] ∧ s.RecvBuffer = [] ∧ s.Closed = true := by
  simp [cleanupCond, Buffer.Len, and_assoc]

/-! ## The tracker: sequences of events -/

theorem processAll_cons (t : Tracker) (e : RawEvent) (es : List RawEvent) :
    processAll t (e :: es) = processAll (t.ProcessEvent e).1 es := rfl

theorem GetStream_processAll (t : Tracker) (es : List RawEvent) (id : StreamID) :
    (processAll t es).GetStream id =
      match t.GetStream id with
      | some s => some (extend s (outboundOf id es) (inboundOf id es))
      | none =>
        if carries id es then
          some (extend (NewTCPStream id) (outboundOf id es) (inboundOf id es))
        else none := by
  induction es generalizing t with
  | nil =>
    cases h : t.GetStream id with
    | none => simp [processAll, carries, h]
    | some s => simp [processAll, outboundOf, inboundOf, extend, h]
  | cons e es ih =>
    rw [processAll_cons, ih, GetStream_ProcessEvent]
    by_cases hid : id = e.id
    · subst hid
      rw [if_pos rfl, ProcessEvent_snd]
      cases h : t.GetStream e.id with
      | none =>
        by_cases hs : e.Direction = DirSend
        · simp [extend, outboundOf, inboundOf, carries, NewTCPStream, hs]
        · simp [extend, outboundOf, inboundOf, carries, NewTCPStream, hs]
      | some s =>
        by_cases hs : e.Direction = DirSend
        · simp [extend, outboundOf, inboundOf, hs]
        · simp [extend, outboundOf, inboundOf, hs]
    · have hne : ¬ e.id = id := fun h => hid h.symm
      rw [if_neg hid]
      simp [outboundOf, inboundOf, carries, hne]

/-! ## The tracker: claims -/

/-- C6: after `ProcessEvent` has processed the events `es` in order from any state
`t`, `GetStream id` returns an entry exactly when one existed before or some
event of `es` carries `id`; its outbound buffer is the previous contents
(empty for a new entry) followed by the payloads, in arrival order, of the
events with identity `id` and direction Outbound, and its inbound buffer the
previous contents followed by the payloads of the events with identity `id`
and any other direction. An event of another identity leaves the entry of
`id` as it is, and every call returns the entry stored under the identity of
its event. -/
theorem ProcessEvent_accumulates (t : Tracker) (es : List RawEvent) (id : StreamID) :
    ((processAll t es).GetStream id =
      match t.GetStream id with
      | some s =>
        some { ID := s.ID,
               SendBuffer := s.SendBuffer ++ outboundOf id es,
               RecvBuffer := s.RecvBuffer ++ inboundOf id es,
               Closed := s.Closed }
      | none =>
        if carries id es then
          some { ID := id,
                 SendBuffer := outboundOf id es,
                 RecvBuffer := inboundOf id es,
                 Closed := false }
        else none) ∧
    (∀ e : RawEvent, e.id ≠ id → (t.ProcessEvent e).1.GetStream id = t.GetStream id) ∧
    (∀ (t1 : Tracker) (e : RawEvent),
      (t1.ProcessEvent e).1.GetStream { PID := e.PID, Fd := e.Fd } = some (t1.ProcessEvent e).2) := by
  refine ⟨?_, ?_, ?_⟩
  · rw [GetStream_processAll]
    cases h : t.GetStream id with
    | none => simp [extend, NewTCPStream]
    | some s => simp [extend]
  · intro e he
    rw [GetStream_ProcessEvent, if_neg (fun h => he h.symm)]
  · intro t1 e
    have := GetStream_ProcessEvent t1 e e.id
    rw [if_pos rfl] at this
    exact this

/-- C7: `CleanupOldStreams` removes exactly the entries whose outbound buffer is
empty, whose inbound buffer is empty and whose closed flag is set: such an
entry is absent afterwards, every other entry is still present under the same
identity with the same buffers and flag, and no entry appears. -/
theorem CleanupOldStreams_exact (t : Tracker) (id : StreamID) :
    t.CleanupOldStreams.GetStream id =
      match t.GetStream id with
      | some s =>
        if s.SendBuffer = [] ∧ s.RecvBuffer = [] ∧ s.Closed = true then none else some s
      | none => none := by
  rw [GetStream_CleanupOldStreams]
  cases h : t.GetStream id with
  | none => rfl
  | some s =>
    by_cases hc : cleanupCond s = true
    · simp [hc, (cleanupCond_iff s).1 hc]
    · have hn : ¬ (s.SendBuffer = [] ∧ s.RecvBuffer = [] ∧ s.Closed = true) :=
        fun h => hc ((cleanupCond_iff s).2 h)
      simp only [hc, hn, if_false]
      simp

/-! ## The tracker: reachable states -/

theorem AllOpen_NewTracker : AllOpen NewTracker := by
  intro id s h
  simp [Tracker.GetStream, NewTracker] at h

theorem AllOpen_apply (c : Call) (t : Tracker) (h : AllOpen t) : AllOpen (c.apply t) := by
  intro id s hs
  cases c with
  | processEvent e =>
    simp only [Call.apply] at hs
    rw [GetStream_ProcessEvent] at hs
    by_cases hid : id = e.id
    · rw [if_pos hid] at hs
      injection hs with hs
      rw [← hs, ProcessEvent_snd]
      cases hg : t.GetStream e.id with
      | none => simp [NewTCPStream]
      | some s0 => simpa using h e.id s0 hg
    · rw [if_neg hid] at hs
      exact h id s hs
  | removeStream id0 =>
    simp only [Call.apply] at hs
    rw [GetStream_RemoveStream] at hs
    by_cases hid : id = id0
    · rw [if_pos hid] at hs; cases hs
    · rw [if_neg hid] at hs; exact h id s hs
  | cleanupOldStreams =>
    simp only [Call.apply] at hs
    rw [GetStream_CleanupOldStreams] at hs
    cases hg : t.GetStream id with
    | none => rw [hg] at hs; cases hs
    | some s0 =>
      rw [hg] at hs
      by_cases hc : cleanupCond s0 = true
      · simp [hc] at hs
      · simp [hc] at hs
        rw [← hs]
        exact h id s0 hg

theorem AllOpen_foldl (cs : List Call) (t : Tracker) (h : AllOpen t) :
    AllOpen (cs.foldl (fun t c => c.apply t) t) := by
  induction cs generalizing t with
  | nil => exact h
  | cons c cs ih => exact ih (c.apply t) (AllOpen_apply c t h)

theorem CleanupOldStreams_of_AllOpen (t : Tracker) (h : AllOpen t) :
    t.CleanupOldStreams = t := by
  unfold Tracker.CleanupOldStreams
  rw [foldl_cleanup_id]
  intro e he
  have hm : t.GetStream e.1 = some e.2 := (mem_entries_iff t e.1 e.2).1 he
  have hcl := h e.1 e.2 hm
  simp [cleanupCond, hcl]

/-- C10: in every state reached from `NewTracker` by `ProcessEvent`, `RemoveStream`
and `CleanupOldStreams` calls, every tracked stream has its closed flag unset;
hence `CleanupOldStreams` leaves the table unchanged there, and a call other
than `RemoveStream` keeps every tracked identity tracked. -/
theorem closed_flag_never_set (cs : List Call) :
    (∀ id s, (runCalls cs).GetStream id = some s → s.Closed = false) ∧
    (runCalls cs).CleanupOldStreams = runCalls cs ∧
    (∀ c : Call, (∀ id0, c ≠ Call.removeStream id0) →
      ∀ id, ((runCalls cs).GetStream id).isSome = true →
        ((c.apply (runCalls cs)).GetStream id).isSome = true) := by
  have hopen : AllOpen (runCalls cs) := AllOpen_foldl cs NewTracker AllOpen_NewTracker
  refine ⟨hopen, CleanupOldStreams_of_AllOpen _ hopen, ?_⟩
  intro c hc id hid
  cases c with
  | processEvent e =>
    simp only [Call.apply]
    rw [GetStream_ProcessEvent]
    by_cases h : id = e.id
    · rw [if_pos h]; rfl
    · rw [if_neg h]; exact hid
  | removeStream id0 => exact absurd rfl (hc id0)
  | cleanupOldStreams =>
    simp only [Call.apply]
    rw [CleanupOldStreams_of_AllOpen _ hopen]
    exact hid

end Capture
